import Mathlib

/-!
Verification of the batched inference client and evaluation steps of the
SageMaker workshop notebooks.

The one piece of non-trivial logic in the repository is the mini-batch
inference client `predict` of the churn notebook:

    def predict(data, rows=500):
        split_array = np.array_split(data, int(data.shape[0] / float(rows) + 1))
        predictions = ''
        for array in split_array:
            predictions = ','.join([predictions, xgb_predictor.predict(array).decode('utf-8')])
        return np.fromstring(predictions[1:], sep=',')

We embed it shallowly: the input matrix is a list of rows (row type
abstract), the remote endpoint is an opaque function from a chunk of rows
to either an error or a list of per-row scores, and the CSV round-trip
(comma-join of the per-chunk responses followed by `np.fromstring`)
is modelled as concatenation of the per-chunk score lists, which is what
it computes when each response carries one score per submitted row.
Scores are modelled as rationals. The chunk-count expression
`int(data.shape[0] / float(rows) + 1)` is modelled as the exact
`n / rows + 1` on naturals (the float division is exact at the integer
magnitudes a notebook can hold), and the `ZeroDivisionError` raised by
`rows = 0` is modelled as an explicit `divByZero` outcome.
-/

namespace Workshop

universe u v

/-- The chunk count `int(data.shape[0] / float(rows) + 1)` computed by
`predict` for an `n`-row input and a rows-per-request bound `rows`. -/
def numChunks (n rows : Nat) : Nat := n / rows + 1

/-- Size of the first chunk `np.array_split` produces when splitting `n`
elements into `k` parts: the first `n % k` chunks get `n / k + 1` elements
and the remaining chunks get `n / k`, so the first chunk has `n / k + 1`
elements exactly when `n % k ≠ 0`. -/
def firstChunkSize (n k : Nat) : Nat :=
  if n % k = 0 then n / k else n / k + 1

/-- `np.array_split l k`: split `l` into exactly `k` chunks whose sizes
differ by at most one, larger chunks first.  (NumPy rejects `k = 0`;
`predict` always calls it with `k ≥ 1`.) -/
def arraySplit : Nat → List α → List (List α)
  | 0, _ => []
  | k + 1, l =>
    l.take (firstChunkSize l.length (k + 1)) ::
      arraySplit k (l.drop (firstChunkSize l.length (k + 1)))

/-- Run the body of `predict`'s loop over the chunks: submit each chunk to
the endpoint in order, stopping at the first error.  Returns the list of
chunks actually submitted (the request trace, in submission order) together
with either the first error or the concatenation of all responses. -/
def runChunks (endpoint : List α → Except ε (List β)) :
    List (List α) → List (List α) × Except ε (List β)
  | [] => ([], Except.ok [])
  | c :: cs =>
    match endpoint c with
    | Except.error e => ([c], Except.error e)
    | Except.ok r =>
      let p := runChunks endpoint cs
      (c :: p.1,
        match p.2 with
        | Except.error e => Except.error e
        | Except.ok rest => Except.ok (r ++ rest))

/-- The possible outcomes of a call to `predict`: the `ZeroDivisionError`
raised while computing the chunk count when `rows = 0`, an endpoint error
propagated out of the loop, or the reassembled score sequence. -/
inductive PredictResult (ε : Type u) (β : Type v) where
  | divByZero : PredictResult ε β
  | endpointError (e : ε) : PredictResult ε β
  | ok (scores : List β) : PredictResult ε β
  deriving DecidableEq

/-- The full behaviour of `predict data rows` against a fallible endpoint:
the trace of chunks submitted to the endpoint and the outcome.  With
`rows = 0` the chunk-count expression raises before any request is made;
otherwise the input is split into `numChunks` chunks which are submitted
sequentially in order. -/
def predictRun (endpoint : List α → Except ε (List β)) (data : List α)
    (rows : Nat) : List (List α) × PredictResult ε β :=
  if rows = 0 then ([], PredictResult.divByZero)
  else
    let p := runChunks endpoint (arraySplit (numChunks data.length rows) data)
    (p.1,
      match p.2 with
      | Except.error e => PredictResult.endpointError e
      | Except.ok r => PredictResult.ok r)

/-- The value `predict data rows` returns when every endpoint call
succeeds: the concatenation, in chunk order, of the endpoint's per-chunk
score lists. -/
def predict (endpoint : List α → List β) (data : List α)
    (rows : Nat := 500) : List β :=
  ((arraySplit (numChunks data.length rows) data).map endpoint).flatten

/-- The fixed cutoff `THRESHOLD = 0.3` of the churn notebook, the rational
`3/10`. -/
def THRESHOLD : ℚ := mkRat 3 10

/-- The labelling step `np.where(predictions > THRESHOLD, 1, 0)`. -/
def npWhereGtThreshold (preds : List ℚ) : List Nat :=
  preds.map (fun s => if THRESHOLD < s then 1 else 0)

/-- The confusion-matrix tabulation
`pd.crosstab(index=test_df.iloc[:, 0], columns=np.where(predictions > THRESHOLD, 1, 0))`:
rows are indexed by the distinct true labels, columns by the distinct
predicted labels, and each cell counts the positions carrying that pair.
`crosstabTotal` is the sum of all cells of the tabulation. -/
def crosstabTotal [DecidableEq γ] (labels : List γ) (preds : List ℚ) : Nat :=
  ∑ a ∈ labels.toFinset, ∑ b ∈ (npWhereGtThreshold preds).toFinset,
    (labels.zip (npWhereGtThreshold preds)).countP
      (fun p => decide (p.1 = a ∧ p.2 = b))

/-- A recorded trial component of the experiment-tracking workflow: a name
and the value of its `test:accuracy` metric. -/
structure TrialComponent where
  trialComponentName : String
  testAccuracy : ℚ
  deriving DecidableEq

/-- Comparison used to sort trials in descending metric order: `a` comes
before `b` when `a`'s metric is at least `b`'s. -/
def metricGE (a b : TrialComponent) : Prop :=
  b.testAccuracy ≤ a.testAccuracy

instance : DecidableRel metricGE :=
  fun a b => inferInstanceAs (Decidable (b.testAccuracy ≤ a.testAccuracy))

instance : IsTotal TrialComponent metricGE :=
  ⟨fun a b => le_total b.testAccuracy a.testAccuracy⟩

instance : IsTrans TrialComponent metricGE :=
  ⟨fun _ _ _ hab hbc => le_trans hbc hab⟩

/-- Modelled from the spec: the experiment-analytics query with
`sort_by="metrics.test:accuracy.max", sort_order="Descending"` is executed
by the external platform, whose code is not in this repository; the spec
("Sorting trials by a metric in descending order yields the
maximum-metric trial first") describes it as a descending sort of the
recorded trials by the metric, modelled here as a sort by `metricGE`. -/
def sortByAccuracyDesc (l : List TrialComponent) : List TrialComponent :=
  List.insertionSort metricGE l

/-! Helper lemmas about `arraySplit`. -/

theorem arraySplit_length (k : Nat) (l : List α) : (arraySplit k l).length = k := by
  induction k generalizing l with
  | zero => rfl
  | succ k ih => simp [arraySplit, ih]

theorem arraySplit_flatten (k : Nat) (l : List α) (hk : 0 < k) :
    (arraySplit k l).flatten = l := by
  induction k generalizing l with
  | zero => exact absurd hk (lt_irrefl 0)
  | succ k ih =>
    rcases Nat.eq_zero_or_pos k with hk0 | hk1
    · subst hk0
      simp [arraySplit, firstChunkSize, Nat.mod_one, Nat.div_one]
    · simp only [arraySplit, List.flatten_cons, ih _ hk1]
      exact List.take_append_drop _ l

theorem sub_firstChunkSize_div (n k : Nat) (hk : 0 < k) :
    (n - firstChunkSize n (k + 1)) / k = n / (k + 1) := by
  have hmod := Nat.div_add_mod n (k + 1)
  have hlt : n % (k + 1) < k + 1 := Nat.mod_lt _ (Nat.succ_pos k)
  have hx : (k + 1) * (n / (k + 1)) = k * (n / (k + 1)) + n / (k + 1) :=
    Nat.succ_mul k (n / (k + 1))
  rw [hx] at hmod
  unfold firstChunkSize
  rcases Nat.eq_zero_or_pos (n % (k + 1)) with h | h
  · rw [if_pos h]
    have h2 : n - n / (k + 1) = k * (n / (k + 1)) := by
      generalize k * (n / (k + 1)) = A at hmod ⊢
      generalize n / (k + 1) = q at hmod ⊢
      omega
    rw [h2, Nat.mul_div_cancel_left _ hk]
  · rw [if_neg (Nat.pos_iff_ne_zero.mp h)]
    have h2 : n - (n / (k + 1) + 1) = k * (n / (k + 1)) + (n % (k + 1) - 1) := by
      generalize k * (n / (k + 1)) = A at hmod ⊢
      generalize n / (k + 1) = q at hmod ⊢
      generalize n % (k + 1) = r at hmod hlt h ⊢
      omega
    rw [h2, Nat.mul_add_div hk]
    have h3 : (n % (k + 1) - 1) / k = 0 := Nat.div_eq_of_lt (by omega)
    rw [h3]
    exact Nat.add_zero _

theorem length_le_of_mem_arraySplit (k : Nat) (l : List α) (hk : 0 < k) :
    ∀ c ∈ arraySplit k l, c.length ≤ l.length / k + 1 := by
  induction k generalizing l with
  | zero => exact absurd hk (lt_irrefl 0)
  | succ k ih =>
    intro c hc
    rw [arraySplit, List.mem_cons] at hc
    rcases hc with rfl | hc
    · have hs : firstChunkSize l.length (k + 1) ≤ l.length / (k + 1) + 1 := by
        unfold firstChunkSize; split <;> omega
      rw [List.length_take]
      exact le_trans (min_le_left _ _) hs
    · rcases Nat.eq_zero_or_pos k with hk0 | hk1
      · subst hk0
        simp [arraySplit] at hc
      · have h1 := ih (l.drop (firstChunkSize l.length (k + 1))) hk1 c hc
        rw [List.length_drop, sub_firstChunkSize_div l.length k hk1] at h1
        exact h1

theorem numChunks_pos (n rows : Nat) : 0 < numChunks n rows :=
  Nat.succ_pos _

theorem div_numChunks_lt (n rows : Nat) (h : 0 < rows) :
    n / numChunks n rows < rows := by
  rw [Nat.div_lt_iff_lt_mul (numChunks_pos n rows)]
  unfold numChunks
  have h1 := Nat.div_add_mod n rows
  have h2 : n % rows < rows := Nat.mod_lt _ h
  calc n = rows * (n / rows) + n % rows := h1.symm
    _ < rows * (n / rows) + rows := Nat.add_lt_add_left h2 _
    _ = rows * (n / rows + 1) := by ring

/-! Helper lemmas about `runChunks`. -/

theorem runChunks_map (f : List α → List β) (cs : List (List α)) :
    runChunks (fun c => Except.ok (f c)) (ε := ε) cs =
      (cs, Except.ok (cs.map f).flatten) := by
  induction cs with
  | nil => simp [runChunks]
  | cons c cs ih => simp [runChunks, ih]

theorem runChunks_ok_trace (endpoint : List α → Except ε (List β))
    (hok : ∀ c, ∃ r, endpoint c = Except.ok r) (cs : List (List α)) :
    (runChunks endpoint cs).1 = cs := by
  induction cs with
  | nil => rfl
  | cons c cs ih =>
    obtain ⟨r, hr⟩ := hok c
    simp [runChunks, hr, ih]

theorem runChunks_error (endpoint : List α → Except ε (List β))
    (cs₁ : List (List α)) (c : List α) (cs₂ : List (List α)) (e : ε)
    (hok : ∀ c' ∈ cs₁, ∃ r, endpoint c' = Except.ok r)
    (herr : endpoint c = Except.error e) :
    runChunks endpoint (cs₁ ++ c :: cs₂) = (cs₁ ++ [c], Except.error e) := by
  induction cs₁ with
  | nil => simp [runChunks, herr]
  | cons a as ih =>
    obtain ⟨r, hr⟩ := hok a (List.mem_cons_self a as)
    have ih2 := ih (fun c' hc' => hok c' (List.mem_cons_of_mem a hc'))
    simp [runChunks, hr, ih2]

theorem runChunks_trace_take (endpoint : List α → Except ε (List β))
    (cs : List (List α)) :
    ∃ m, m ≤ cs.length ∧ (runChunks endpoint cs).1 = cs.take m ∧
      ∀ i, i + 1 < m → ∃ r, endpoint (cs.getD i []) = Except.ok r := by
  induction cs with
  | nil => exact ⟨0, Nat.le_refl 0, rfl, fun i hi => absurd hi (by omega)⟩
  | cons c cs ih =>
    cases hec : endpoint c with
    | error e =>
      refine ⟨1, by simp, by simp [runChunks, hec], fun i hi => absurd hi (by omega)⟩
    | ok r =>
      obtain ⟨m, hm, htr, hresp⟩ := ih
      refine ⟨m + 1, by simpa using hm, by simp [runChunks, hec, htr], ?_⟩
      intro i hi
      cases i with
      | zero => exact ⟨r, hec⟩
      | succ j =>
        have hj := hresp j (by omega)
        simpa using hj

/-! Helper lemma for the confusion-matrix tabulation: summing, over all
pairs of a row value and a column value, the number of positions of a pair
list carrying that pair counts every position exactly once. -/

theorem sum_countP_pairs {γ δ : Type} [DecidableEq γ] [DecidableEq δ]
    (l : List (γ × δ)) (s : Finset γ) (t : Finset δ)
    (hmem : ∀ p ∈ l, p.1 ∈ s ∧ p.2 ∈ t) :
    (∑ a ∈ s, ∑ b ∈ t, l.countP (fun p => decide (p.1 = a ∧ p.2 = b))) =
      l.length := by
  induction l with
  | nil => simp
  | cons p l ih =>
    have hp := hmem p (List.mem_cons_self p l)
    have ihl := ih (fun q hq => hmem q (List.mem_cons_of_mem p hq))
    have hsplit : ∀ a b, (p :: l).countP (fun q => decide (q.1 = a ∧ q.2 = b)) =
        l.countP (fun q => decide (q.1 = a ∧ q.2 = b)) +
          if p = (a, b) then 1 else 0 := by
      intro a b
      rw [List.countP_cons]
      by_cases hpab : p = (a, b)
      · subst hpab; simp
      · have h2 : ¬(p.1 = a ∧ p.2 = b) := by
          intro hab
          exact hpab (Prod.ext hab.1 hab.2)
        simp [hpab, h2]
    simp only [hsplit, Finset.sum_add_distrib, ihl]
    have hprod := Finset.sum_product s t (fun z => if p = z then (1 : Nat) else 0)
    have hone : (∑ a ∈ s, ∑ b ∈ t, if p = (a, b) then (1 : Nat) else 0) = 1 := by
      rw [← hprod, Finset.sum_ite_eq (s ×ˢ t) p (fun _ => (1 : Nat)),
        if_pos (Finset.mem_product.mpr hp)]
    rw [hone]
    rfl

/-! Helper lemma for the trial sort: the head of the descending sort is a
maximum-metric element. -/

theorem head_sortByAccuracyDesc_max (l : List TrialComponent) (b : TrialComponent)
    (rest : List TrialComponent) (hs : sortByAccuracyDesc l = b :: rest) :
    b ∈ l ∧ ∀ t ∈ l, t.testAccuracy ≤ b.testAccuracy := by
  have hperm : List.Perm (sortByAccuracyDesc l) l := List.perm_insertionSort metricGE l
  have hsorted : List.Sorted metricGE (sortByAccuracyDesc l) :=
    List.sorted_insertionSort metricGE l
  rw [hs] at hperm hsorted
  refine ⟨hperm.subset (List.mem_cons_self b rest), ?_⟩
  intro t ht
  rcases List.mem_cons.mp (hperm.symm.subset ht) with rfl | ht2
  · exact le_refl _
  · exact List.rel_of_sorted_cons hsorted t ht2

/-- Endpoint used in witnesses: always succeeds, echoing the chunk back. -/
def echoEndpoint : List Nat → Except Nat (List Nat) := fun c => Except.ok c

/-- Endpoint used in witnesses: succeeds on the chunk `[0]` and fails on
every other chunk. -/
def failingEndpoint : List Nat → Except Nat (List Nat) :=
  fun c => if c = [0] then Except.ok [5] else Except.error 7

/-! The claims. -/

/-- C1: for every input feature matrix and every positive rows-per-request
bound, if the endpoint returns exactly one score per submitted row in
submission order (i.e. it maps a per-row scoring function over its chunk),
the score sequence returned by `predict` has length equal to the number of
input rows, and its `i`-th element is the score of the `i`-th input row. -/
theorem predict_length_and_order (score : α → β) (f : List α → List β)
    (hf : ∀ c, f c = c.map score) (data : List α) (rows : Nat) (h : 0 < rows) :
    (predict f data rows).length = data.length ∧
    ∀ i : Nat, (predict f data rows)[i]? = (data[i]?).map score := by
  have hpred : predict f data rows = data.map score := by
    unfold predict
    rw [List.map_congr_left (fun c _ => hf c), ← List.map_flatten,
      arraySplit_flatten _ _ (numChunks_pos _ _)]
  exact ⟨by rw [hpred, List.length_map], fun i => by rw [hpred, List.getElem?_map]⟩

theorem predict_length_and_order_witness :
    (predict (fun c => c.map (fun x => x + 10)) [1, 2, 3] 2).length = 3 :=
  (predict_length_and_order (fun x => x + 10) (fun c => c.map (fun x => x + 10))
    (fun _ => rfl) [1, 2, 3] 2 (by decide)).1

/-- C2: the partition step of `predict` — `np.array_split` of the n-row
input into `int(n / rows + 1)` chunks — is a lossless, order-preserving
partition: concatenating the chunks in order yields exactly the original
sequence of rows, with no row dropped or duplicated. -/
theorem split_lossless (data : List α) (rows : Nat) (h : 0 < rows) :
    (arraySplit (numChunks data.length rows) data).flatten = data :=
  arraySplit_flatten _ _ (numChunks_pos _ _)

theorem split_lossless_witness :
    (arraySplit (numChunks 3 2) [10, 11, 12]).flatten = [10, 11, 12] :=
  split_lossless [10, 11, 12] 2 (by decide)

/-- C3: for every input and every positive rows-per-request bound, each
chunk produced by `predict`'s split step contains at most `rows` rows, so
no single endpoint request carries more than the bound. -/
theorem split_chunk_le_rows (data : List α) (rows : Nat) (h : 0 < rows) :
    ∀ c ∈ arraySplit (numChunks data.length rows) data, c.length ≤ rows := by
  intro c hc
  have h1 := length_le_of_mem_arraySplit _ data (numChunks_pos data.length rows) c hc
  have h2 := div_numChunks_lt data.length rows h
  omega

theorem split_chunk_le_rows_witness :
    ((arraySplit (numChunks 5 2) [0, 1, 2, 3, 4]).headD []).length ≤ 2 :=
  split_chunk_le_rows [0, 1, 2, 3, 4] 2 (by decide) _ (by decide)

/-- C4: thresholding assigns every score a binary label: the labelling
step has one label per score, the label for score `s` is `1` if
`s > THRESHOLD` (the fixed cutoff 0.3) and `0` otherwise, and hence every
produced label lies in `{0, 1}`. -/
theorem threshold_binary (preds : List ℚ) :
    (npWhereGtThreshold preds).length = preds.length ∧
    (∀ i : Nat, (npWhereGtThreshold preds)[i]? =
      (preds[i]?).map (fun s => if THRESHOLD < s then 1 else 0)) ∧
    ∀ lab ∈ npWhereGtThreshold preds, lab = 0 ∨ lab = 1 := by
  refine ⟨List.length_map _ _, fun i => List.getElem?_map .., ?_⟩
  intro lab hlab
  rcases List.mem_map.mp hlab with ⟨s, _, hs⟩
  by_cases hc : THRESHOLD < s
  · right; rw [← hs, if_pos hc]
  · left; rw [← hs, if_neg hc]

theorem threshold_binary_witness :
    (npWhereGtThreshold [mkRat 1 2, mkRat 1 5]).headD 7 = 0 ∨
      (npWhereGtThreshold [mkRat 1 2, mkRat 1 5]).headD 7 = 1 :=
  (threshold_binary [mkRat 1 2, mkRat 1 5]).2.2 _ (by decide)

/-- C5: the sum of all cells of the confusion-matrix tabulation (crosstab
of the true labels against the thresholded predicted labels) equals the
number of input test rows, for every test set and every score sequence of
matching length. -/
theorem crosstab_total_eq_rows {γ : Type} [DecidableEq γ] (labels : List γ)
    (preds : List ℚ) (h : labels.length = preds.length) :
    crosstabTotal labels preds = labels.length := by
  unfold crosstabTotal
  have hlen : (npWhereGtThreshold preds).length = preds.length := List.length_map _ _
  have hmem : ∀ p ∈ labels.zip (npWhereGtThreshold preds),
      p.1 ∈ labels.toFinset ∧ p.2 ∈ (npWhereGtThreshold preds).toFinset := by
    intro p hp
    rcases p with ⟨a, b⟩
    obtain ⟨h1, h2⟩ := List.of_mem_zip hp
    exact ⟨List.mem_toFinset.mpr h1, List.mem_toFinset.mpr h2⟩
  rw [sum_countP_pairs _ _ _ hmem, List.length_zip, hlen, ← h, Nat.min_self]

theorem crosstab_total_eq_rows_witness :
    crosstabTotal ([0, 1] : List Int) [mkRat 1 2, mkRat 1 5] = 2 :=
  crosstab_total_eq_rows [0, 1] [mkRat 1 2, mkRat 1 5] rfl

/-- C6: sorting the recorded trials in descending order by the
`test:accuracy` metric places a maximum-metric trial first: for every
finite non-empty collection of trials, the trial at row 0 of the sorted
sequence (the one then loaded and deployed) is one of the trials and its
metric value is greater than or equal to that of every trial. -/
theorem sorted_desc_head_is_max (l : List TrialComponent) (h : l ≠ []) :
    ∃ b, (sortByAccuracyDesc l).head? = some b ∧ b ∈ l ∧
      ∀ t ∈ l, t.testAccuracy ≤ b.testAccuracy := by
  cases hs : sortByAccuracyDesc l with
  | nil =>
    exfalso
    have hperm : List.Perm (sortByAccuracyDesc l) l := List.perm_insertionSort metricGE l
    rw [hs] at hperm
    exact h hperm.symm.eq_nil
  | cons b rest =>
    obtain ⟨hb, hmax⟩ := head_sortByAccuracyDesc_max l b rest hs
    exact ⟨b, rfl, hb, hmax⟩

theorem sorted_desc_head_is_max_witness :
    ∃ b, (sortByAccuracyDesc [⟨"trial-1", 1 / 2⟩, ⟨"trial-2", 3 / 4⟩]).head? = some b ∧
      b ∈ [(⟨"trial-1", 1 / 2⟩ : TrialComponent), ⟨"trial-2", 3 / 4⟩] ∧
      ∀ t ∈ [(⟨"trial-1", 1 / 2⟩ : TrialComponent), ⟨"trial-2", 3 / 4⟩],
        t.testAccuracy ≤ b.testAccuracy :=
  sorted_desc_head_is_max _ (List.cons_ne_nil _ _)

/-- C7: if the endpoint invocation for some chunk fails, `predict`
propagates that failure unchanged to its caller as a hard fault: it
submits the chunks before the failing one and the failing one exactly once
each (no retry), issues no request for any later chunk, and returns the
endpoint's error rather than any score sequence. -/
theorem predict_error_propagation (endpoint : List α → Except ε (List β))
    (data : List α) (rows : Nat) (h : 0 < rows)
    (cs₁ : List (List α)) (c : List α) (cs₂ : List (List α)) (e : ε)
    (hsplit : arraySplit (numChunks data.length rows) data = cs₁ ++ c :: cs₂)
    (hok : ∀ c' ∈ cs₁, ∃ r, endpoint c' = Except.ok r)
    (herr : endpoint c = Except.error e) :
    predictRun endpoint data rows = (cs₁ ++ [c], PredictResult.endpointError e) := by
  unfold predictRun
  rw [if_neg (Nat.pos_iff_ne_zero.mp h), hsplit,
    runChunks_error endpoint cs₁ c cs₂ e hok herr]

theorem predict_error_propagation_witness :
    predictRun failingEndpoint [0, 1, 2] 1 = ([[0], [1]], PredictResult.endpointError 7) :=
  predict_error_propagation failingEndpoint [0, 1, 2] 1 (by decide)
    [[0]] [1] [[2], []] 7 (by decide)
    (fun c' hc' => ⟨[5], by rw [List.mem_singleton.mp hc']; rfl⟩) rfl

/-- C8: `predict` issues endpoint requests strictly sequentially and in
chunk order: the request trace is an in-order initial segment of the chunk
sequence (so at most one request is in flight at a time in this sequential
model), and the request for chunk `i + 1` is issued only after the
response for chunk `i` has been received successfully. -/
theorem predict_trace_sequential (endpoint : List α → Except ε (List β))
    (data : List α) (rows : Nat) (h : 0 < rows) :
    ∃ m, m ≤ (arraySplit (numChunks data.length rows) data).length ∧
      (predictRun endpoint data rows).1 =
        (arraySplit (numChunks data.length rows) data).take m ∧
      ∀ i, i + 1 < m →
        ∃ r, endpoint ((arraySplit (numChunks data.length rows) data).getD i []) =
          Except.ok r := by
  obtain ⟨m, hm, htr, hresp⟩ :=
    runChunks_trace_take endpoint (arraySplit (numChunks data.length rows) data)
  refine ⟨m, hm, ?_, hresp⟩
  unfold predictRun
  rw [if_neg (Nat.pos_iff_ne_zero.mp h)]
  exact htr

theorem predict_trace_sequential_witness :
    ∃ m, m ≤ (arraySplit (numChunks 2 1) [0, 1]).length ∧
      (predictRun echoEndpoint [0, 1] 1).1 = (arraySplit (numChunks 2 1) [0, 1]).take m ∧
      ∀ i, i + 1 < m →
        ∃ r, echoEndpoint ((arraySplit (numChunks 2 1) [0, 1]).getD i []) = Except.ok r :=
  predict_trace_sequential echoEndpoint [0, 1] 1 (by decide)

/-- C9: for every n-row input and every positive bound `rows`, `predict`
issues exactly `int(n / rows + 1)` endpoint requests when every request
succeeds; in particular it issues one request with an empty chunk when the
input is empty, and `m + 1` requests when `n = m * rows` is a positive
exact multiple of the bound. -/
theorem predict_request_count (endpoint : List α → Except ε (List β))
    (data : List α) (rows : Nat) (h : 0 < rows)
    (hok : ∀ c, ∃ r, endpoint c = Except.ok r) :
    (predictRun endpoint data rows).1.length = data.length / rows + 1 ∧
    (data = [] → (predictRun endpoint data rows).1 = [[]]) ∧
    ∀ m : Nat, data.length = m * rows →
      (predictRun endpoint data rows).1.length = m + 1 := by
  have htrace : (predictRun endpoint data rows).1 =
      arraySplit (numChunks data.length rows) data := by
    unfold predictRun
    rw [if_neg (Nat.pos_iff_ne_zero.mp h)]
    exact runChunks_ok_trace endpoint hok _
  refine ⟨by rw [htrace, arraySplit_length]; rfl, ?_, ?_⟩
  · intro hdata
    subst hdata
    have h1 : numChunks (List.length ([] : List α)) rows = 1 := by
      unfold numChunks
      rw [List.length_nil, Nat.zero_div]
    rw [htrace, h1]
    simp [arraySplit, firstChunkSize]
  · intro m hm
    rw [htrace, arraySplit_length]
    unfold numChunks
    rw [hm, Nat.mul_div_cancel m h]

theorem predict_request_count_witness :
    (predictRun echoEndpoint ([] : List Nat) 5).1 = [[]] :=
  (predict_request_count echoEndpoint [] 5 (by decide) (fun c => ⟨c, rfl⟩)).2.1 rfl

/-- C10: calling `predict` with a rows-per-request bound of 0 fails with
the division by zero raised while computing the chunk count, before any
endpoint request is issued; the computation is well-defined only under the
unchecked precondition `rows > 0`. -/
theorem predict_rows_zero (endpoint : List α → Except ε (List β)) (data : List α) :
    predictRun endpoint data 0 = ([], PredictResult.divByZero) :=
  rfl

end Workshop
